import Mathlib

set_option maxRecDepth 4000
set_option maxHeartbeats 1600000

/-!
Verification development for the mtproto proxy scraper (src/mtproto_parser.c).

Modelling conventions used throughout this file:

* A C string is modelled as the `List Nat` of its bytes up to (and
  excluding) the NUL terminator; such lists contain no `0` byte.
* 64-bit unsigned arithmetic is modelled on `Nat` with an explicit
  `% 2 ^ 64` where the C code can overflow.
* Fallible operations return `Option`.
* External collaborators (libcurl, pcre2, the clock) are modelled as
  explicit oracle parameters, following the spec's component boundaries.
-/

/-! ## FNV-1a hash (`compute_hash`, mtproto_parser.c lines 341-358) -/

/-- 2^64, the modulus of the C `uint64_t` arithmetic. -/
def U64 : Nat := 2 ^ 64

/-- FNV-1a offset basis, the literal 14695981039346656037ULL from the source. -/
def FNV_OFFSET : Nat := 14695981039346656037

/-- FNV prime, the literal 1099511628211ULL from the source. -/
def FNV_PRIME : Nat := 1099511628211

/-- One FNV-1a step: `hash = (hash ^ byte) * FNV_PRIME` in 64-bit arithmetic. -/
def fnvStep (h b : Nat) : Nat := ((h ^^^ b) * FNV_PRIME) % U64

/-- Hash a byte sequence starting from accumulator `h`, one `fnvStep` per byte
(the shape of each `for` loop inside `compute_hash`). -/
def hashBytes (h : Nat) (s : List Nat) : Nat := s.foldl fnvStep h

/-- `compute_hash` from the source: hash the server bytes, a `':'` (58), the
port bytes, a `':'`, then the first 64 bytes of the secret
(`for (int i = 0; i < 64 && secret[i]; i++)`, i.e. `secret.take 64` for a
NUL-free byte list). The C casts `(uint64_t)(*p)` on a possibly signed
`char`; every hashed field has been sanitized to printable ASCII (bytes
0x20-0x7E) before this call, so the cast always equals the byte value and
the direct XOR below is faithful regardless of `char` signedness. -/
def compute_hash (server port secret : List Nat) : Nat :=
  let h1 := hashBytes FNV_OFFSET server
  let h2 := fnvStep h1 58
  let h3 := hashBytes h2 port
  let h4 := fnvStep h3 58
  hashBytes h4 (secret.take 64)

theorem hashBytes_append (h : Nat) (s t : List Nat) :
    hashBytes h (s ++ t) = hashBytes (hashBytes h s) t := by
  simp [hashBytes, List.foldl_append]

theorem hashBytes_lt (h : Nat) (s : List Nat) (hh : h < U64) : hashBytes h s < U64 := by
  induction s generalizing h with
  | nil => exact hh
  | cons c cs ih =>
      have : fnvStep h c < U64 := Nat.mod_lt _ (by decide)
      exact ih _ this

theorem compute_hash_lt (server port secret : List Nat) :
    compute_hash server port secret < U64 := by
  have h0 : FNV_OFFSET < U64 := by decide
  have h1 := hashBytes_lt FNV_OFFSET server h0
  have h2 : fnvStep (hashBytes FNV_OFFSET server) 58 < U64 := Nat.mod_lt _ (by decide)
  have h3 := hashBytes_lt _ port h2
  have h4 : fnvStep (hashBytes (fnvStep (hashBytes FNV_OFFSET server) 58) port) 58 < U64 :=
    Nat.mod_lt _ (by decide)
  exact hashBytes_lt _ (secret.take 64) h4

/-- Claim C1: `compute_hash` returns the 64-bit FNV-1a digest of the byte
sequence `server ++ ':' ++ port ++ ':' ++ secret.take 64` starting from seed
0xcbf29ce484222325 with multiplier 0x100000001b3, XOR-ing each byte in and
multiplying; consequently two triples with equal server, equal port and equal
first 64 secret bytes hash identically. -/
theorem C1_compute_hash_fnv :
    ∀ server port secret : List Nat,
      compute_hash server port secret
        = hashBytes FNV_OFFSET (server ++ 58 :: (port ++ 58 :: secret.take 64)) ∧
      ∀ secret' : List Nat, secret.take 64 = secret'.take 64 →
        compute_hash server port secret = compute_hash server port secret' := by
  intro server port secret
  constructor
  · simp only [compute_hash, hashBytes_append]
    have e1 : (58 : Nat) :: (port ++ 58 :: secret.take 64)
        = [58] ++ port ++ ([58] ++ secret.take 64) := by simp
    rw [e1]
    simp only [hashBytes_append]
    rfl
  · intro secret' hsec
    simp only [compute_hash, hsec]

/-- Witness for C1 at concrete inputs: two secrets agreeing on their first 64
bytes (one has trailing bytes changed) receive the same hash. -/
theorem C1_compute_hash_fnv_witness :
    (List.replicate 70 97).take 64 = (List.replicate 64 97 ++ List.replicate 6 98).take 64 ∧
    compute_hash [49, 46, 50, 46, 51, 46, 52] [52, 52, 51] (List.replicate 70 97)
      = compute_hash [49, 46, 50, 46, 51, 46, 52] [52, 52, 51]
          (List.replicate 64 97 ++ List.replicate 6 98) := by
  refine ⟨by decide, ?_⟩
  exact (C1_compute_hash_fnv [49, 46, 50, 46, 51, 46, 52] [52, 52, 51]
    (List.replicate 70 97)).2 (List.replicate 64 97 ++ List.replicate 6 98) (by decide)

/-! ## Data model: `ProxyRecord` and the bounded record store -/

/-- Capacity ceiling of the global store (`PROXY_CAPACITY` in the source). -/
def PROXY_CAPACITY : Nat := 1000000

/-- Cap on one fetch's temporary batch (`PROXY_BATCH_SIZE` in the source). -/
def PROXY_BATCH_SIZE : Nat := 5000

/-- Download buffer ceiling (`BUFFER_CAPACITY`, 100 MB, in the source). -/
def BUFFER_CAPACITY : Nat := 100 * 1024 * 1024

/-- The `ProxyRecord` struct of the source. Character arrays are byte lists,
`time_t` values and the atomic int flags are `Nat`. -/
structure ProxyRecord where
  server : List Nat
  port : List Nat
  secret : List Nat
  connection_url : List Nat
  source : List Nat
  country : List Nat
  type : List Nat
  hash_value : Nat
  discovery_time : Nat
  last_verified : Nat
  active : Nat
  verified : Nat
  speed_score : Nat
deriving DecidableEq

/-- The linear duplicate scan `proxy_storage[j].hash_value == ...` over the
store (and likewise over the per-fetch batch). -/
def hashMem (store : List ProxyRecord) (h : Nat) : Bool :=
  store.any (fun r => r.hash_value == h)

/-- One iteration of the merge loop at the end of
`extract_proxies_from_content` (lines 666-694): while the store is below
`PROXY_CAPACITY`, a discovered record is appended unless some stored record
already carries its hash; the second component counts added records (the
amount added to `stats.unique_proxies` / `last_cycle_proxies`). -/
def mergeStep (st : List ProxyRecord × Nat) (r : ProxyRecord) : List ProxyRecord × Nat :=
  if st.1.length < PROXY_CAPACITY then
    if hashMem st.1 r.hash_value then st
    else (st.1 ++ [r], st.2 + 1)
  else st

/-- The whole locked batch merge: fold `mergeStep` over the discovered batch.
(The C loop breaks once the store is at capacity; since `mergeStep` is the
identity there and the length never decreases, the per-element guard is
equivalent.) -/
def mergeBatch (store : List ProxyRecord) (batch : List ProxyRecord) :
    List ProxyRecord × Nat :=
  batch.foldl mergeStep (store, 0)

/-- The store over the process lifetime: the result of merging a sequence of
batches into the initially empty (calloc'ed) store. -/
def mergeSequence (batches : List (List ProxyRecord)) : List ProxyRecord :=
  batches.foldl (fun s b => (mergeBatch s b).1) []

/-- The store invariant: no two stored records share a hash value. -/
def HashesDistinct (store : List ProxyRecord) : Prop :=
  (store.map ProxyRecord.hash_value).Nodup

theorem hashMem_iff (store : List ProxyRecord) (h : Nat) :
    hashMem store h = true ↔ ∃ r ∈ store, r.hash_value = h := by
  simp [hashMem, List.any_eq_true]

theorem hashMem_append_left (store ext : List ProxyRecord) (h : Nat)
    (hm : hashMem store h = true) : hashMem (store ++ ext) h = true := by
  rw [hashMem_iff] at hm ⊢
  obtain ⟨r, hr, he⟩ := hm
  exact ⟨r, List.mem_append_left _ hr, he⟩

theorem foldl_mergeStep_ext (b : List ProxyRecord) :
    ∀ st : List ProxyRecord × Nat, ∃ ext, (List.foldl mergeStep st b).1 = st.1 ++ ext := by
  induction b with
  | nil => intro st; exact ⟨[], by simp⟩
  | cons r bs ih =>
      intro st
      simp only [List.foldl_cons]
      obtain ⟨ext, hext⟩ := ih (mergeStep st r)
      by_cases h1 : st.1.length < PROXY_CAPACITY
      · by_cases h2 : hashMem st.1 r.hash_value = true
        · exact ⟨ext, by simpa [mergeStep, h1, h2] using hext⟩
        · refine ⟨[r] ++ ext, ?_⟩
          rw [hext]
          simp [mergeStep, h1, h2]
      · exact ⟨ext, by simpa [mergeStep, h1] using hext⟩

theorem foldl_mergeStep_length_mono (b : List ProxyRecord) (st : List ProxyRecord × Nat) :
    st.1.length ≤ (List.foldl mergeStep st b).1.length := by
  obtain ⟨ext, hext⟩ := foldl_mergeStep_ext b st
  rw [hext]
  simp

theorem foldl_mergeStep_le_cap (b : List ProxyRecord) :
    ∀ st : List ProxyRecord × Nat, st.1.length ≤ PROXY_CAPACITY →
      (List.foldl mergeStep st b).1.length ≤ PROXY_CAPACITY := by
  induction b with
  | nil => intro st h; exact h
  | cons r bs ih =>
      intro st h
      simp only [List.foldl_cons]
      refine ih _ ?_
      by_cases h1 : st.1.length < PROXY_CAPACITY
      · by_cases h2 : hashMem st.1 r.hash_value = true
        · simpa [mergeStep, h1, h2] using h
        · simp only [mergeStep, h1, if_true, h2]
          simp only [Bool.not_eq_true] at h2
          simp [h2, List.length_append]
          omega
      · simpa [mergeStep, h1] using h

theorem foldl_mergeStep_at_cap (b : List ProxyRecord) :
    ∀ (store : List ProxyRecord) (a : Nat), PROXY_CAPACITY ≤ store.length →
      List.foldl mergeStep (store, a) b = (store, a) := by
  induction b with
  | nil => intro store a _; rfl
  | cons r bs ih =>
      intro store a h
      have h1 : ¬ store.length < PROXY_CAPACITY := by omega
      simp only [List.foldl_cons, mergeStep, h1, if_false]
      exact ih store a h

theorem mergeStep_covers_self (st : List ProxyRecord × Nat) (r : ProxyRecord) :
    PROXY_CAPACITY ≤ (mergeStep st r).1.length ∨
      hashMem (mergeStep st r).1 r.hash_value = true := by
  by_cases h1 : st.1.length < PROXY_CAPACITY
  · by_cases h2 : hashMem st.1 r.hash_value = true
    · right; simpa [mergeStep, h1, h2] using h2
    · right
      simp only [mergeStep, h1, if_true, h2, if_false]
      rw [hashMem_iff]
      exact ⟨r, by simp, rfl⟩
  · left
    simp only [mergeStep, h1, if_false]
    omega

theorem mergeBatch_covers (b : List ProxyRecord) :
    ∀ (st : List ProxyRecord × Nat) (r : ProxyRecord), r ∈ b →
      PROXY_CAPACITY ≤ (List.foldl mergeStep st b).1.length ∨
        hashMem (List.foldl mergeStep st b).1 r.hash_value = true := by
  induction b with
  | nil => intro st r hr; cases hr
  | cons x bs ih =>
      intro st r hr
      simp only [List.foldl_cons]
      rcases List.mem_cons.1 hr with rfl | hr'
      · rcases mergeStep_covers_self st r with hcap | hmem
        · left
          exact le_trans hcap (foldl_mergeStep_length_mono bs _)
        · right
          obtain ⟨ext, hext⟩ := foldl_mergeStep_ext bs (mergeStep st r)
          rw [hext]
          exact hashMem_append_left _ _ _ hmem
      · exact ih (mergeStep st x) r hr'

theorem foldl_mergeStep_noop (b : List ProxyRecord) :
    ∀ (store : List ProxyRecord) (a : Nat),
      (∀ r ∈ b, PROXY_CAPACITY ≤ store.length ∨ hashMem store r.hash_value = true) →
      List.foldl mergeStep (store, a) b = (store, a) := by
  induction b with
  | nil => intro store a _; rfl
  | cons x bs ih =>
      intro store a h
      have hx := h x (by simp)
      have hstep : mergeStep (store, a) x = (store, a) := by
        rcases hx with hcap | hmem
        · have h1 : ¬ store.length < PROXY_CAPACITY := by omega
          simp [mergeStep, h1]
        · by_cases h1 : store.length < PROXY_CAPACITY
          · simp [mergeStep, h1, hmem]
          · simp [mergeStep, h1]
      simp only [List.foldl_cons, hstep]
      exact ih store a (fun r hr => h r (List.mem_cons_of_mem _ hr))

theorem mergeStep_nodup (st : List ProxyRecord × Nat) (r : ProxyRecord)
    (h : HashesDistinct st.1) : HashesDistinct (mergeStep st r).1 := by
  by_cases h1 : st.1.length < PROXY_CAPACITY
  · by_cases h2 : hashMem st.1 r.hash_value = true
    · simpa [mergeStep, h1, h2] using h
    · have h2' : hashMem st.1 r.hash_value = false := by simpa using h2
      have hstep : (mergeStep st r).1 = st.1 ++ [r] := by simp [mergeStep, h1, h2']
      rw [hstep]
      have hnot : r.hash_value ∉ st.1.map ProxyRecord.hash_value := by
        intro hmm
        apply h2
        rw [hashMem_iff]
        obtain ⟨x, hx, he⟩ := List.mem_map.1 hmm
        exact ⟨x, hx, he⟩
      unfold HashesDistinct at h ⊢
      rw [List.map_append]
      simp [List.nodup_append, h, hnot]
  · simpa [mergeStep, h1] using h


theorem foldl_mergeStep_nodup (b : List ProxyRecord) :
    ∀ st : List ProxyRecord × Nat, HashesDistinct st.1 →
      HashesDistinct (List.foldl mergeStep st b).1 := by
  induction b with
  | nil => intro st h; simpa using h
  | cons x bs ih =>
      intro st h
      simp only [List.foldl_cons]
      exact ih _ (mergeStep_nodup st x h)

/-- Claim C2: the store never holds two records with the same hash (after any
sequence of batch merges from the empty initial store, and preserved by any
single merge from a distinct-hash store), and re-merging a batch whose hashes
all already occurred in a previously merged batch adds zero records and
leaves the store — hence the unique-proxy counter — unchanged. -/
theorem C2_store_dedup :
    (∀ batches : List (List ProxyRecord), HashesDistinct (mergeSequence batches)) ∧
    ∀ store batch batch2 : List ProxyRecord, HashesDistinct store →
      (∀ r2 ∈ batch2, ∃ r ∈ batch, r2.hash_value = r.hash_value) →
      HashesDistinct (mergeBatch store batch).1 ∧
        mergeBatch (mergeBatch store batch).1 batch2 = ((mergeBatch store batch).1, 0) := by
  constructor
  · intro batches
    have main : ∀ (bs : List (List ProxyRecord)) (s : List ProxyRecord), HashesDistinct s →
        HashesDistinct (List.foldl (fun s b => (mergeBatch s b).1) s bs) := by
      intro bs
      induction bs with
      | nil => intro s h; simpa using h
      | cons b rest ih =>
          intro s h
          simp only [List.foldl_cons]
          exact ih _ (foldl_mergeStep_nodup b (s, 0) h)
    exact main batches [] (by simp [HashesDistinct])
  · intro store batch batch2 hdis hsub
    refine ⟨foldl_mergeStep_nodup batch (store, 0) hdis, ?_⟩
    apply foldl_mergeStep_noop
    intro r2 hr2
    obtain ⟨r, hr, he⟩ := hsub r2 hr2
    rw [he]
    exact mergeBatch_covers batch (store, 0) r hr

/-- A concrete record used by witnesses (fields as the extraction engine
would fill them; the exact values are irrelevant to the merge lemmas). -/
def recA : ProxyRecord :=
  ⟨[97, 98, 99, 100], [52, 52, 51], List.replicate 32 48,
   [], [], [85, 78], [68, 111, 109, 97, 105, 110], 12345, 100, 100, 1, 0, 50⟩

/-- `recA` re-extracted in a later cycle: same hash, later timestamps. -/
def recB : ProxyRecord :=
  ⟨[97, 98, 99, 100], [52, 52, 51], List.replicate 32 48,
   [], [], [85, 78], [68, 111, 109, 97, 105, 110], 12345, 200, 200, 1, 0, 50⟩

/-- Witness for C2: merging `[recA]` into the empty store and then re-merging
the identical-document batch `[recB]` (same hash, later timestamp) adds zero
records. -/
theorem C2_store_dedup_witness :
    HashesDistinct [] ∧
    (∀ r2 ∈ [recB], ∃ r ∈ [recA], r2.hash_value = r.hash_value) ∧
    (HashesDistinct (mergeBatch [] [recA]).1 ∧
      mergeBatch (mergeBatch [] [recA]).1 [recB] = ((mergeBatch [] [recA]).1, 0)) := by
  refine ⟨by simp [HashesDistinct], ?_, ?_⟩
  · intro r2 hr2
    refine ⟨recA, by simp, ?_⟩
    simp only [List.mem_singleton] at hr2
    rw [hr2]
    rfl
  · exact C2_store_dedup.2 [] [recA] [recB] (by simp [HashesDistinct])
      (by intro r2 hr2
          refine ⟨recA, by simp, ?_⟩
          simp only [List.mem_singleton] at hr2
          rw [hr2]
          rfl)

/-- Claim C5: merging never grows the store past `PROXY_CAPACITY`; existing
records are never modified (the merged store extends the old one); and a
merge attempted at capacity adds nothing and returns the store unchanged. -/
theorem C5_capacity_bound :
    ∀ store batch : List ProxyRecord, store.length ≤ PROXY_CAPACITY →
      (mergeBatch store batch).1.length ≤ PROXY_CAPACITY ∧
      (∃ ext, (mergeBatch store batch).1 = store ++ ext) ∧
      (store.length = PROXY_CAPACITY → mergeBatch store batch = (store, 0)) := by
  intro store batch h
  refine ⟨foldl_mergeStep_le_cap batch (store, 0) h,
    foldl_mergeStep_ext batch (store, 0), ?_⟩
  intro hfull
  exact foldl_mergeStep_at_cap batch store 0 (le_of_eq hfull.symm)

/-- Witness for C5 at a store exactly at capacity: merging a fresh record
leaves the store untouched and adds zero. -/
theorem C5_capacity_bound_witness :
    (List.replicate PROXY_CAPACITY recA).length ≤ PROXY_CAPACITY ∧
    ((mergeBatch (List.replicate PROXY_CAPACITY recA) [recB]).1.length ≤ PROXY_CAPACITY ∧
      (∃ ext, (mergeBatch (List.replicate PROXY_CAPACITY recA) [recB]).1
          = List.replicate PROXY_CAPACITY recA ++ ext) ∧
      ((List.replicate PROXY_CAPACITY recA).length = PROXY_CAPACITY →
        mergeBatch (List.replicate PROXY_CAPACITY recA) [recB]
          = (List.replicate PROXY_CAPACITY recA, 0))) :=
  ⟨by simp, C5_capacity_bound _ _ (by simp)⟩

/-! ## Validation (`validate_proxy`, lines 363-402) -/

/-- `isspace` in the C locale: space, tab, LF, VT, FF, CR (bytes 9-13, 32). -/
def isSpaceByte (c : Nat) : Bool := c == 32 || (9 ≤ c && c ≤ 13)

/-- ASCII decimal digit. -/
def isDigitByte (c : Nat) : Bool := 48 ≤ c && c ≤ 57

/-- Hex digit exactly as the C test: 0-9, a-f, A-F. -/
def isHexByte (c : Nat) : Bool :=
  (48 ≤ c && c ≤ 57) || (97 ≤ c && c ≤ 102) || (65 ≤ c && c ≤ 70)

/-- Value of a digit run. -/
def digitsVal (ds : List Nat) : Nat := ds.foldl (fun a c => a * 10 + (c - 48)) 0

/-- `strtol(port, &endptr, 10)`: skip `isspace` bytes, read an optional sign,
then a maximal run of decimal digits. `none` models "no conversion
performed" (C then sets `endptr` back to the start, which `validate_proxy`
rejects as `endptr == port`); otherwise the value and the unconsumed rest
(`endptr`) are returned. LONG_MAX overflow clamping cannot trigger at the
call site because the port string was already checked to 15 bytes at most. -/
def strtol10 (s : List Nat) : Option (Int × List Nat) :=
  let s1 := s.dropWhile isSpaceByte
  let signAndRest : Int × List Nat :=
    match s1 with
    | 43 :: r => (1, r)
    | 45 :: r => (-1, r)
    | _ => (1, s1)
  let ds := signAndRest.2.takeWhile isDigitByte
  let rest := signAndRest.2.dropWhile isDigitByte
  if ds = [] then none
  else some (signAndRest.1 * (digitsVal ds : Int), rest)

/-- The secret-scanning loop of `validate_proxy`, carrying the `valid_chars`
and `hex_chars` counters; `none` models the early `return 0` on a byte that
is neither hex, `'='` (61), space, tab, LF nor CR. The caller runs it on
`secret.take 128` only (`i < secret_len && i < 128`). -/
def secretScan : List Nat → Nat → Nat → Option (Nat × Nat)
  | [], valid, hex => some (valid, hex)
  | c :: cs, valid, hex =>
    if isHexByte c then secretScan cs (valid + 1) (hex + 1)
    else if c = 61 then secretScan cs (valid + 1) hex
    else if c = 32 ∨ c = 9 ∨ c = 10 ∨ c = 13 then secretScan cs valid hex
    else none

/-- `validate_proxy` from the source, with the same test order. -/
def validate_proxy (server port secret : List Nat) : Bool :=
  if server.length < 4 ∨ 253 < server.length then false
  else if port.length < 1 ∨ 15 < port.length then false
  else if secret.length < 16 ∨ 511 < secret.length then false
  else
    match strtol10 port with
    | none => false
    | some (v, rest) =>
      if rest ≠ [] then false
      else if v < 1 ∨ 65535 < v then false
      else
        match secretScan (secret.take 128) 0 0 with
        | none => false
        | some (valid, hex) => decide (16 ≤ valid ∧ 8 ≤ hex)

/-- A byte the secret scanner tolerates. -/
def secretAllowedB (c : Nat) : Bool :=
  isHexByte c || c == 61 || c == 32 || c == 9 || c == 10 || c == 13

/-- Hex-or-padding byte (counted by `valid_chars`). -/
def validCharB (c : Nat) : Bool := isHexByte c || c == 61

/-- The amended C3 acceptance condition, phrased from the spec's wording but
with the secret's character-class and counting conditions restricted to its
first 128 bytes, and the port condition phrased via `strtol` semantics. -/
def validSpec (server port secret : List Nat) : Prop :=
  (4 ≤ server.length ∧ server.length ≤ 253) ∧
  (1 ≤ port.length ∧ port.length ≤ 15) ∧
  (∃ v : Nat, 1 ≤ v ∧ v ≤ 65535 ∧ strtol10 port = some ((v : Int), [])) ∧
  (16 ≤ secret.length ∧ secret.length ≤ 511) ∧
  (∀ c ∈ secret.take 128,
    isHexByte c = true ∨ c = 61 ∨ c = 32 ∨ c = 9 ∨ c = 10 ∨ c = 13) ∧
  8 ≤ (secret.take 128).countP isHexByte ∧
  16 ≤ (secret.take 128).countP validCharB

theorem secretAllowedB_iff (c : Nat) :
    secretAllowedB c = true ↔
      (isHexByte c = true ∨ c = 61 ∨ c = 32 ∨ c = 9 ∨ c = 10 ∨ c = 13) := by
  simp [secretAllowedB, Bool.or_eq_true]
  tauto

theorem secretScan_all_true (l : List Nat) :
    ∀ valid hex, l.all secretAllowedB = true →
      secretScan l valid hex = some (valid + l.countP validCharB, hex + l.countP isHexByte) := by
  induction l with
  | nil => intro valid hex _; simp [secretScan]
  | cons c cs ih =>
      intro valid hex hall
      rw [List.all_cons, Bool.and_eq_true] at hall
      obtain ⟨hc, hcs⟩ := hall
      by_cases hhex : isHexByte c = true
      · have : secretScan (c :: cs) valid hex = secretScan cs (valid + 1) (hex + 1) := by
          simp [secretScan, hhex]
        rw [this, ih _ _ hcs]
        simp [List.countP_cons, hhex, validCharB]
        constructor <;> omega
      · by_cases heq : c = 61
        · have : secretScan (c :: cs) valid hex = secretScan cs (valid + 1) hex := by
            subst heq
            rfl
          rw [this, ih _ _ hcs]
          simp [List.countP_cons, hhex, heq, validCharB, isHexByte]
          omega
        · have hws : c = 32 ∨ c = 9 ∨ c = 10 ∨ c = 13 := by
            rcases (secretAllowedB_iff c).1 hc with h | h | h | h | h | h
            · exact absurd h hhex
            · exact absurd h heq
            · exact Or.inl h
            · exact Or.inr (Or.inl h)
            · exact Or.inr (Or.inr (Or.inl h))
            · exact Or.inr (Or.inr (Or.inr h))
          have : secretScan (c :: cs) valid hex = secretScan cs valid hex := by
            simp [secretScan, hhex, heq, hws]
          rw [this, ih _ _ hcs]
          have hpc : validCharB c = false := by
            simp [validCharB, hhex, heq]
          have hpx : isHexByte c = false := by simpa using hhex
          simp [List.countP_cons, hpc, hpx]

theorem secretScan_all_false (l : List Nat) :
    ∀ valid hex, l.all secretAllowedB = false → secretScan l valid hex = none := by
  induction l with
  | nil => intro valid hex h; cases h
  | cons c cs ih =>
      intro valid hex hall
      rw [List.all_cons, Bool.and_eq_false_iff] at hall
      by_cases hhex : isHexByte c = true
      · have hc : secretAllowedB c = true := by simp [secretAllowedB, hhex]
        have hcs : cs.all secretAllowedB = false := by
          rcases hall with h | h
          · rw [hc] at h; cases h
          · exact h
        have : secretScan (c :: cs) valid hex = secretScan cs (valid + 1) (hex + 1) := by
          simp [secretScan, hhex]
        rw [this, ih _ _ hcs]
      · by_cases heq : c = 61
        · have hc : secretAllowedB c = true := by simp [secretAllowedB, heq]
          have hcs : cs.all secretAllowedB = false := by
            rcases hall with h | h
            · rw [hc] at h; cases h
            · exact h
          have : secretScan (c :: cs) valid hex = secretScan cs (valid + 1) hex := by
            subst heq
            rfl
          rw [this, ih _ _ hcs]
        · by_cases hws : c = 32 ∨ c = 9 ∨ c = 10 ∨ c = 13
          · have hc : secretAllowedB c = true := by
              rw [secretAllowedB_iff]
              tauto
            have hcs : cs.all secretAllowedB = false := by
              rcases hall with h | h
              · rw [hc] at h; cases h
              · exact h
            have : secretScan (c :: cs) valid hex = secretScan cs valid hex := by
              simp [secretScan, hhex, heq, hws]
            rw [this, ih _ _ hcs]
          · simp [secretScan, hhex, heq, hws]

/-- Claim C3 (amended): `validate_proxy` accepts exactly the triples meeting
the spec's conditions with the secret's character-class and count checks
restricted to the first 128 bytes and the port parse following `strtol`
(leading whitespace and a sign are consumed); and it rejects the spec's
listed concrete bad inputs: port "0", port "65536", port "abc", a secret of
length 10, a secret with a disallowed character, a server of 254 bytes. -/
theorem C3_validate_characterization :
    (∀ server port secret : List Nat,
      validate_proxy server port secret = true ↔ validSpec server port secret) ∧
    validate_proxy [97, 98, 99, 100] [48] (List.replicate 32 48) = false ∧
    validate_proxy [97, 98, 99, 100] [54, 53, 53, 51, 54] (List.replicate 32 48) = false ∧
    validate_proxy [97, 98, 99, 100] [97, 98, 99] (List.replicate 32 48) = false ∧
    validate_proxy [97, 98, 99, 100] [52, 52, 51] (List.replicate 10 48) = false ∧
    validate_proxy [97, 98, 99, 100] [52, 52, 51] (33 :: List.replicate 31 48) = false ∧
    validate_proxy (List.replicate 254 97) [52, 52, 51] (List.replicate 32 48) = false := by
  refine ⟨?_, by decide, by decide, by decide, by decide, by decide, by decide⟩
  intro server port secret
  constructor
  · intro h
    unfold validate_proxy at h
    by_cases h1 : server.length < 4 ∨ 253 < server.length
    · rw [if_pos h1] at h; cases h
    rw [if_neg h1] at h
    by_cases h2 : port.length < 1 ∨ 15 < port.length
    · rw [if_pos h2] at h; cases h
    rw [if_neg h2] at h
    by_cases h3 : secret.length < 16 ∨ 511 < secret.length
    · rw [if_pos h3] at h; cases h
    rw [if_neg h3] at h
    rcases hp : strtol10 port with _ | ⟨v, rest⟩ <;> rw [hp] at h <;> dsimp only at h
    · cases h
    by_cases h4 : rest ≠ []
    · rw [if_pos h4] at h; cases h
    rw [if_neg h4] at h
    push_neg at h4
    by_cases h5 : v < 1 ∨ 65535 < v
    · rw [if_pos h5] at h; cases h
    rw [if_neg h5] at h
    have hall : (secret.take 128).all secretAllowedB = true := by
      by_contra hna
      rw [Bool.not_eq_true] at hna
      rw [secretScan_all_false _ 0 0 hna] at h
      cases h
    rw [secretScan_all_true _ 0 0 hall] at h
    dsimp only at h
    rw [decide_eq_true_eq] at h
    push_neg at h1 h2 h3 h5
    refine ⟨⟨h1.1, h1.2⟩, ⟨h2.1, h2.2⟩, ?_, ⟨h3.1, h3.2⟩, ?_, ?_, ?_⟩
    · refine ⟨v.toNat, ?_, ?_, ?_⟩
      · omega
      · omega
      · rw [hp, h4]
        have : ((v.toNat : Nat) : Int) = v := Int.toNat_of_nonneg (by omega)
        rw [this]
    · intro c hc
      rw [← secretAllowedB_iff]
      exact List.all_eq_true.1 hall c hc
    · omega
    · omega
  · intro hs
    obtain ⟨⟨ha1, ha2⟩, ⟨hb1, hb2⟩, ⟨v, hv1, hv2, hport⟩, ⟨hc1, hc2⟩, hchars, hhex, hvalid⟩ := hs
    unfold validate_proxy
    rw [if_neg (by omega), if_neg (by omega), if_neg (by omega), hport]
    dsimp only
    rw [if_neg (by simp), if_neg (by omega)]
    have hall : (secret.take 128).all secretAllowedB = true := by
      rw [List.all_eq_true]
      intro c hc
      rw [secretAllowedB_iff]
      exact hchars c hc
    rw [secretScan_all_true _ 0 0 hall]
    dsimp only
    rw [decide_eq_true_eq]
    constructor <;> omega

/-- Counterexample to C3 as stated: a 129-byte secret whose 129th byte is
`'!'` (33, not hex, padding or whitespace) is accepted by `validate_proxy` —
the scan stops at byte 128 — although the claim requires every byte of the
secret to be hex, `'='` or whitespace. -/
theorem C3_counterexample :
    validate_proxy [97, 98, 99, 100] [52, 52, 51] (List.replicate 128 48 ++ [33]) = true ∧
    ¬ (∀ c ∈ List.replicate 128 48 ++ [33],
        isHexByte c = true ∨ c = 61 ∨ c = 32 ∨ c = 9 ∨ c = 10 ∨ c = 13) := by
  constructor
  · decide
  · decide

/-! ## HTTP write callback (`write_callback`, lines 438-470) -/

/-- The size/capacity bookkeeping of the source's `DynamicBuffer` (the data
pointer itself carries no further information in this model). -/
structure DynamicBuffer where
  size : Nat
  capacity : Nat
deriving DecidableEq

/-- `write_callback` from the source: grows the buffer when
`size + total_size + 1 > capacity` by doubling (at least to the needed size)
but clamping the request to `BUFFER_CAPACITY`, models `realloc` by the
`allocOK` oracle (`false` = allocation failed, callback returns 0 leaving the
buffer untouched), then unconditionally copies `total` bytes at offset `size`
and a NUL at `size + total`, returning `total` (success for libcurl). The
write stays inside the allocation exactly when `size + total + 1 ≤ capacity`
holds afterwards. -/
def write_callback (allocOK : Nat → Bool) (active : Bool) (buf : DynamicBuffer)
    (total : Nat) : DynamicBuffer × Nat :=
  if ¬ active then (buf, 0)
  else if buf.capacity < buf.size + total + 1 then
    let grown := buf.capacity * 2
    let wanted := if grown < buf.size + total + 1 then buf.size + total + 1 else grown
    let newCap := if BUFFER_CAPACITY < wanted then BUFFER_CAPACITY else wanted
    if allocOK newCap then (⟨buf.size + total, newCap⟩, total)
    else (buf, 0)
  else (⟨buf.size + total, buf.capacity⟩, total)

/-- Claim C10 is the spec's intent, and the code violates it: with the buffer
one byte short of the 100 MB ceiling and 2 incoming bytes, growth is clamped
to `BUFFER_CAPACITY`, the callback reports success (returns the byte count, 2,
instead of 0), and the final size exceeds what the allocation can hold
(`size + 1 > capacity`), i.e. the `memcpy`/NUL write lands past the end of
the 100 MB block. -/
theorem C10_overflow_at_ceiling :
    (write_callback (fun _ => true) true ⟨BUFFER_CAPACITY - 1, BUFFER_CAPACITY⟩ 2).2 = 2 ∧
    (write_callback (fun _ => true) true ⟨BUFFER_CAPACITY - 1, BUFFER_CAPACITY⟩ 2).1.capacity
        < (write_callback (fun _ => true) true ⟨BUFFER_CAPACITY - 1, BUFFER_CAPACITY⟩ 2).1.size + 1 := by
  constructor
  · decide
  · decide

/-! ## Sanitization (`sanitize_string`, lines 408-434) -/

/-- Printable ASCII as the C test `>= 0x20 && < 0x7F`. Note tab (9), LF (10)
and CR (13) are NOT printable, so the source removes them outright; only the
space byte 32 ever reaches the whitespace branch of the loop. -/
def printableByte (c : Nat) : Bool := decide (32 ≤ c ∧ c < 127)

/-- One iteration of the read/write loop of `sanitize_string`. The state is
the bytes written so far and the `space_flag`. A whitespace byte is copied as
a single space only if the flag is clear and something was already written
(`write_ptr > str`); a printable non-space byte is copied and clears the
flag; everything else is dropped with the flag untouched. -/
def sanStep (st : List Nat × Bool) (c : Nat) : List Nat × Bool :=
  if 32 ≤ c ∧ c < 127 then
    if c = 32 ∨ c = 9 ∨ c = 10 ∨ c = 13 then
      if st.2 = false ∧ st.1 ≠ [] then (st.1 ++ [32], true) else st
    else (st.1 ++ [c], false)
  else st

/-- The final trim loop: drop trailing spaces and tabs from the written
string. -/
def trimTrailing (out : List Nat) : List Nat :=
  (out.reverse.dropWhile (fun c => c == 32 || c == 9)).reverse

/-- `sanitize_string` from the source: run the loop from an empty output with
the flag clear, then trim trailing whitespace. -/
def sanitize_string (s : List Nat) : List Nat :=
  trimTrailing (s.foldl sanStep ([], false)).1

/-- Collapse runs of space bytes to a single space (spec-side description). -/
def collapseSpaces : List Nat → List Nat
  | [] => []
  | [c] => [c]
  | c1 :: c2 :: rest =>
    if c1 = 32 ∧ c2 = 32 then collapseSpaces (c2 :: rest)
    else c1 :: collapseSpaces (c2 :: rest)

/-- Drop leading space bytes (spec-side description). -/
def dropLeadingSpaces (l : List Nat) : List Nat := l.dropWhile (fun c => c == 32)

/-- Drop trailing space bytes (spec-side description). -/
def trimTrailingSpaces (l : List Nat) : List Nat :=
  (l.reverse.dropWhile (fun c => c == 32)).reverse

theorem collapse_cons_of_ne (c : Nat) (l : List Nat) (hc : c ≠ 32) :
    collapseSpaces (c :: l) = c :: collapseSpaces l := by
  cases l with
  | nil => rfl
  | cons c2 r => simp [collapseSpaces, hc]

theorem dropLeading_cons_of_ne (c : Nat) (l : List Nat) (hc : c ≠ 32) :
    dropLeadingSpaces (c :: l) = c :: l := by
  simp [dropLeadingSpaces, List.dropWhile_cons, hc]

theorem dropLeading_cons_32 (l : List Nat) :
    dropLeadingSpaces (32 :: l) = dropLeadingSpaces l := by
  simp [dropLeadingSpaces, List.dropWhile_cons]

theorem dropLeading_idem (l : List Nat) :
    dropLeadingSpaces (dropLeadingSpaces l) = dropLeadingSpaces l := by
  induction l with
  | nil => rfl
  | cons c r ih =>
      by_cases hc : c = 32
      · subst hc
        rw [dropLeading_cons_32, ih]
      · rw [dropLeading_cons_of_ne c r hc, dropLeading_cons_of_ne c r hc]

theorem collapse_cons_32 (l : List Nat) :
    collapseSpaces (32 :: l) = 32 :: dropLeadingSpaces (collapseSpaces l) := by
  induction l with
  | nil => rfl
  | cons c r ih =>
      by_cases hc : c = 32
      · subst hc
        calc collapseSpaces (32 :: 32 :: r) = collapseSpaces (32 :: r) := by
              simp [collapseSpaces]
          _ = 32 :: dropLeadingSpaces (collapseSpaces r) := ih
          _ = 32 :: dropLeadingSpaces (dropLeadingSpaces (collapseSpaces r)) := by
              rw [dropLeading_idem]
          _ = 32 :: dropLeadingSpaces (32 :: dropLeadingSpaces (collapseSpaces r)) := by
              rw [dropLeading_cons_32]
          _ = 32 :: dropLeadingSpaces (collapseSpaces (32 :: r)) := by rw [ih]
      · have h1 : collapseSpaces (32 :: c :: r) = 32 :: collapseSpaces (c :: r) := by
          simp [collapseSpaces, hc]
        rw [h1, collapse_cons_of_ne c r hc, dropLeading_cons_of_ne c _ hc]

theorem dropLeading_collapse_32 (l : List Nat) :
    dropLeadingSpaces (collapseSpaces (32 :: l)) = dropLeadingSpaces (collapseSpaces l) := by
  rw [collapse_cons_32, dropLeading_cons_32, dropLeading_idem]

/-- The loop characterization: from any state, the bytes written by the rest
of the input are the printable bytes with space runs collapsed; runs are
additionally dropped at the front exactly when the flag is set or nothing was
written yet. -/
theorem foldl_sanStep_spec (s : List Nat) :
    ∀ (out : List Nat) (flag : Bool),
      (List.foldl sanStep (out, flag) s).1
        = out ++ (if flag = true ∨ out = [] then
            dropLeadingSpaces (collapseSpaces (s.filter printableByte))
          else collapseSpaces (s.filter printableByte)) := by
  induction s with
  | nil =>
      intro out flag
      by_cases hf : flag = true ∨ out = [] <;>
        simp [hf, dropLeadingSpaces, collapseSpaces]
  | cons c s' ih =>
      intro out flag
      simp only [List.foldl_cons]
      by_cases hpr : 32 ≤ c ∧ c < 127
      · have hfilc : printableByte c = true := by
          simp [printableByte]
          omega
        have hfil : (c :: s').filter printableByte = c :: s'.filter printableByte := by
          simp [hfilc]
        by_cases hws : c = 32 ∨ c = 9 ∨ c = 10 ∨ c = 13
        · have hc32 : c = 32 := by omega
          subst hc32
          by_cases hfo : flag = false ∧ out ≠ []
          · have hstep : sanStep (out, flag) 32 = (out ++ [32], true) := by
              simp [sanStep, hfo]
            rw [hstep, ih (out ++ [32]) true, if_pos (Or.inl rfl), hfil]
            have hneg : ¬ (flag = true ∨ out = []) := by
              rcases hfo with ⟨hf1, hf2⟩
              subst hf1
              simp [hf2]
            rw [if_neg hneg, collapse_cons_32]
            simp
          · have hstep : sanStep (out, flag) 32 = (out, flag) := by
              simp [sanStep, hfo]
            rw [hstep, ih out flag, hfil]
            have hcond : flag = true ∨ out = [] := by
              cases flag with
              | false =>
                  right
                  by_contra hne
                  exact hfo ⟨rfl, hne⟩
              | true => exact Or.inl rfl
            rw [if_pos hcond, if_pos hcond, dropLeading_collapse_32]
        · have hcne : c ≠ 32 := by
            intro he
            exact hws (Or.inl he)
          have hstep : sanStep (out, flag) c = (out ++ [c], false) := by
            simp [sanStep, hpr, hws]
          rw [hstep, ih (out ++ [c]) false, hfil]
          have hneg : ¬ ((false : Bool) = true ∨ out ++ [c] = []) := by simp
          rw [if_neg hneg]
          by_cases hf : flag = true ∨ out = []
          · rw [if_pos hf, collapse_cons_of_ne c _ hcne, dropLeading_cons_of_ne c _ hcne]
            simp
          · rw [if_neg hf, collapse_cons_of_ne c _ hcne]
            simp
      · have hstep : sanStep (out, flag) c = (out, flag) := by
          simp [sanStep, hpr]
        have hfilc : printableByte c = false := by
          simp [printableByte]
          omega
        have hfil : (c :: s').filter printableByte = s'.filter printableByte := by
          simp [hfilc]
        rw [hstep, ih out flag, hfil]

theorem mem_of_mem_collapse (l : List Nat) : ∀ x ∈ collapseSpaces l, x ∈ l := by
  induction l with
  | nil => intro x hx; cases hx
  | cons c r ih =>
      intro x hx
      cases r with
      | nil =>
          simp only [collapseSpaces, List.mem_singleton] at hx
          simp [hx]
      | cons c2 r2 =>
          by_cases h : c = 32 ∧ c2 = 32
          · rw [show collapseSpaces (c :: c2 :: r2) = collapseSpaces (c2 :: r2) by
              simp [collapseSpaces, h]] at hx
            exact List.mem_cons_of_mem _ (ih x hx)
          · rw [show collapseSpaces (c :: c2 :: r2) = c :: collapseSpaces (c2 :: r2) by
              simp [collapseSpaces, h]] at hx
            rcases List.mem_cons.1 hx with rfl | hx'
            · simp
            · exact List.mem_cons_of_mem _ (ih x hx')

theorem mem_of_mem_dropWhile (p : Nat → Bool) (l : List Nat) (x : Nat)
    (hx : x ∈ l.dropWhile p) : x ∈ l := by
  induction l with
  | nil => simpa using hx
  | cons c r ih =>
      rw [List.dropWhile_cons] at hx
      by_cases hp : p c = true
      · rw [if_pos hp] at hx
        exact List.mem_cons_of_mem _ (ih hx)
      · rw [if_neg hp] at hx
        exact hx

theorem dropWhile_congr_on (p q : Nat → Bool) (l : List Nat)
    (h : ∀ x ∈ l, p x = q x) : l.dropWhile p = l.dropWhile q := by
  induction l with
  | nil => rfl
  | cons c r ih =>
      have hc := h c (by simp)
      simp only [List.dropWhile_cons, hc]
      by_cases hq : q c = true
      · simp only [hq, if_true]
        exact ih (fun x hx => h x (List.mem_cons_of_mem _ hx))
      · have hq' : q c = false := by simpa using hq
        simp [hq']

theorem trimTrailing_eq_spec (u : List Nat) (h9 : ∀ x ∈ u, x ≠ 9) :
    trimTrailing u = trimTrailingSpaces u := by
  unfold trimTrailing trimTrailingSpaces
  congr 1
  apply dropWhile_congr_on
  intro x hx
  have hx9 : x ≠ 9 := h9 x (List.mem_reverse.1 hx)
  have h9f : (x == 9) = false := by simp [hx9]
  simp [h9f]

theorem trimTrailing_prefix_self (u : List Nat) : ∃ w, u = trimTrailing u ++ w := by
  refine ⟨(u.reverse.takeWhile (fun c => c == 32 || c == 9)).reverse, ?_⟩
  unfold trimTrailing
  rw [← List.reverse_append, List.takeWhile_append_dropWhile, List.reverse_reverse]

theorem trimTrailing_snoc_ws (x : List Nat) (c : Nat) (hc : (c == 32 || c == 9) = true) :
    trimTrailing (x ++ [c]) = trimTrailing x := by
  unfold trimTrailing
  rw [List.reverse_append]
  simp [List.dropWhile_cons, hc]

theorem trimTrailing_snoc_keep (x : List Nat) (c : Nat) (hc : (c == 32 || c == 9) = false) :
    trimTrailing (x ++ [c]) = x ++ [c] := by
  unfold trimTrailing
  rw [List.reverse_append]
  simp [List.dropWhile_cons, hc]

theorem trimTrailing_append (u v : List Nat) :
    ∃ w, trimTrailing (u ++ v) = trimTrailing u ++ w := by
  induction v using List.reverseRecOn with
  | nil => exact ⟨[], by simp⟩
  | append_singleton v c ih =>
      by_cases hc : (c == 32 || c == 9) = true
      · obtain ⟨w, hw⟩ := ih
        refine ⟨w, ?_⟩
        rw [← List.append_assoc, trimTrailing_snoc_ws (u ++ v) c hc, hw]
      · have hc' : (c == 32 || c == 9) = false := by simpa using hc
        obtain ⟨w0, hw0⟩ := trimTrailing_prefix_self u
        refine ⟨w0 ++ v ++ [c], ?_⟩
        rw [← List.append_assoc, trimTrailing_snoc_keep (u ++ v) c hc']
        conv_lhs => rw [hw0]
        simp

theorem sanStep_ext (st : List Nat × Bool) (c : Nat) : ∃ w, (sanStep st c).1 = st.1 ++ w := by
  unfold sanStep
  by_cases h1 : 32 ≤ c ∧ c < 127
  · by_cases h2 : c = 32 ∨ c = 9 ∨ c = 10 ∨ c = 13
    · by_cases h3 : st.2 = false ∧ st.1 ≠ []
      · exact ⟨[32], by simp [h1, h2, h3]⟩
      · exact ⟨[], by simp [h1, h2, h3]⟩
    · exact ⟨[c], by simp [h1, h2]⟩
  · exact ⟨[], by simp [h1]⟩

theorem foldl_sanStep_ext (t : List Nat) :
    ∀ st : List Nat × Bool, ∃ v, (List.foldl sanStep st t).1 = st.1 ++ v := by
  induction t with
  | nil => intro st; exact ⟨[], by simp⟩
  | cons c r ih =>
      intro st
      simp only [List.foldl_cons]
      obtain ⟨v, hv⟩ := ih (sanStep st c)
      obtain ⟨w, hw⟩ := sanStep_ext st c
      exact ⟨w ++ v, by rw [hv, hw, List.append_assoc]⟩

theorem sanitize_eq_spec (s : List Nat) :
    sanitize_string s
      = trimTrailingSpaces (dropLeadingSpaces (collapseSpaces (s.filter printableByte))) := by
  unfold sanitize_string
  rw [foldl_sanStep_spec s [] false, if_pos (Or.inr rfl)]
  simp only [List.nil_append]
  apply trimTrailing_eq_spec
  intro x hx
  have hx1 : x ∈ collapseSpaces (s.filter printableByte) :=
    mem_of_mem_dropWhile _ _ x hx
  have hx2 : x ∈ s.filter printableByte := mem_of_mem_collapse _ x hx1
  have hpr : printableByte x = true := (List.mem_filter.1 hx2).2
  intro he
  subst he
  simp [printableByte] at hpr

/-- Claim C6 (amended): `sanitize_string` keeps only the printable bytes
0x20-0x7E (tab, CR, LF and all other control bytes are removed outright, so
only the space byte acts as whitespace), collapses runs of spaces to a single
space, drops leading spaces, and trims trailing spaces; it is a deterministic
function of the input alone, and it is prefix-preserving: extending the input
only extends the output. -/
theorem C6_sanitize_characterization :
    (∀ s : List Nat, sanitize_string s
        = trimTrailingSpaces (dropLeadingSpaces (collapseSpaces (s.filter printableByte)))) ∧
    ∀ s t : List Nat, ∃ w, sanitize_string (s ++ t) = sanitize_string s ++ w := by
  constructor
  · exact sanitize_eq_spec
  · intro s t
    unfold sanitize_string
    rw [List.foldl_append]
    obtain ⟨v, hv⟩ := foldl_sanStep_ext t (List.foldl sanStep ([], false) s)
    rw [hv]
    exact trimTrailing_append _ v

/-- Whitespace as the claim under C6 reads it: space, tab, CR, LF. -/
def isClaimWS (c : Nat) : Bool := c == 32 || c == 9 || c == 10 || c == 13

/-- Collapsing as claim C6 describes it: every run of whitespace characters
becomes one single space. -/
def collapseClaimWS : List Nat → List Nat
  | [] => []
  | [c] => [if isClaimWS c then 32 else c]
  | c1 :: c2 :: rest =>
    if isClaimWS c1 && isClaimWS c2 then collapseClaimWS (c2 :: rest)
    else (if isClaimWS c1 then 32 else c1) :: collapseClaimWS (c2 :: rest)

/-- The sanitization function claim C6 describes: remove non-printable bytes
(whitespace bytes are retained for collapsing, since the claim lists tab, CR
and LF as whitespace to collapse), collapse whitespace runs to one space,
trim trailing whitespace. -/
def claimSanitize (s : List Nat) : List Nat :=
  ((collapseClaimWS (s.filter (fun c => printableByte c || isClaimWS c))).reverse.dropWhile
    isClaimWS).reverse

/-- Counterexample to C6 as stated: on input "a\tb" ([97, 9, 98]) the code
deletes the tab (it fails the printable test before the whitespace branch is
reached), producing "ab", while the claim's collapse-whitespace-runs
description produces "a b". -/
theorem C6_counterexample :
    sanitize_string [97, 9, 98] = [97, 98] ∧
    claimSanitize [97, 9, 98] = [97, 32, 98] ∧
    sanitize_string [97, 9, 98] ≠ claimSanitize [97, 9, 98] := by
  refine ⟨by decide, by decide, by decide⟩

/-! ## Extraction finalization (lines 567-649) -/

/-- ASCII lower-casing, as `strncasecmp` compares. -/
def toLowerByte (c : Nat) : Nat := if 65 ≤ c ∧ c ≤ 90 then c + 32 else c

/-- `strncasecmp(s, prefix, strlen(prefix)) == 0` for a NUL-free prefix: the
first `prefix.length` bytes of `s` match case-insensitively. If `s` is
shorter, its terminating NUL mismatches the prefix byte, so the test fails. -/
def matchesPrefixCI (s p : List Nat) : Bool :=
  decide (p.length ≤ s.length) &&
    ((s.take p.length).map toLowerByte == p.map toLowerByte)

/-- The label-stripping passes (lines 581-606): for each prefix in order, if
the field currently starts with it case-insensitively, drop it (`memmove`)
and re-sanitize the field. -/
def stripPrefixes (prefixes : List (List Nat)) (s : List Nat) : List Nat :=
  prefixes.foldl
    (fun acc p =>
      if matchesPrefixCI acc p then sanitize_string (acc.drop p.length) else acc) s

/-- "Server:", "server:", "SERVER:", "Host:", "host:", "HOST:". -/
def serverPrefixes : List (List Nat) :=
  [[83, 101, 114, 118, 101, 114, 58], [115, 101, 114, 118, 101, 114, 58],
   [83, 69, 82, 86, 69, 82, 58], [72, 111, 115, 116, 58],
   [104, 111, 115, 116, 58], [72, 79, 83, 84, 58]]

/-- "Port:", "port:", "PORT:". -/
def portPrefixes : List (List Nat) :=
  [[80, 111, 114, 116, 58], [112, 111, 114, 116, 58], [80, 79, 82, 84, 58]]

/-- "Secret:", "secret:", "SECRET:", "Key:", "key:", "KEY:". -/
def secretPrefixes : List (List Nat) :=
  [[83, 101, 99, 114, 101, 116, 58], [115, 101, 99, 114, 101, 116, 58],
   [83, 69, 67, 82, 69, 84, 58], [75, 101, 121, 58],
   [107, 101, 121, 58], [75, 69, 89, 58]]

/-- The IP classification loop: every byte a decimal digit or `'.'` (46). -/
def isIPv4server (s : List Nat) : Bool :=
  s.all (fun c => (48 ≤ c && c ≤ 57) || c == 46)

/-- The full `tg://proxy?server=<s>&port=<p>&secret=<k>` byte string (the
literal chunks are "tg://proxy?server=", "&port=" and "&secret="). -/
def tgUrlBytes (server port secret : List Nat) : List Nat :=
  [116, 103, 58, 47, 47, 112, 114, 111, 120, 121, 63, 115, 101, 114, 118, 101, 114, 61] ++
    server ++ [38, 112, 111, 114, 116, 61] ++ port ++
    [38, 115, 101, 99, 114, 101, 116, 61] ++ secret

/-- The per-match finalization of `extract_proxies_from_content`: sanitize
the three captured fields, strip label prefixes, validate; on success build
the record with hash, equal discovery/verification timestamps, flags
active=1/verified=0, speed 50, source truncated by
`strncpy(..., sizeof(source)-1)`, country "UN", type "IPv4" or "Domain", and
the connection URL truncated to 511 bytes by `snprintf` into a 512-byte
buffer. Returns `none` when validation rejects the candidate. -/
def finalizeCandidate (source rawServer rawPort rawSecret : List Nat) (tnow : Nat) :
    Option ProxyRecord :=
  let s1 := stripPrefixes serverPrefixes (sanitize_string rawServer)
  let p1 := stripPrefixes portPrefixes (sanitize_string rawPort)
  let k1 := stripPrefixes secretPrefixes (sanitize_string rawSecret)
  if validate_proxy s1 p1 k1 then
    some
      { server := s1
        port := p1
        secret := k1
        connection_url := (tgUrlBytes s1 p1 k1).take 511
        source := source.take 255
        country := [85, 78]
        type := if isIPv4server s1 then [73, 80, 118, 52] else [68, 111, 109, 97, 105, 110]
        hash_value := compute_hash s1 p1 k1
        discovery_time := tnow
        last_verified := tnow
        active := 1
        verified := 0
        speed_score := 50 }
  else none

/-- The field invariant claim C8 asserts of every record the engine creates:
country "UN" ([85,78]), active 1, verified 0, speed 50, validation passed on
the record's own (sanitized, label-stripped) fields, and type "IPv4" exactly
when every server byte is a digit or dot, else "Domain". -/
def GoodRecord (r : ProxyRecord) : Prop :=
  r.country = [85, 78] ∧ r.active = 1 ∧ r.verified = 0 ∧ r.speed_score = 50 ∧
  validate_proxy r.server r.port r.secret = true ∧
  r.type = (if isIPv4server r.server then [73, 80, 118, 52] else [68, 111, 109, 97, 105, 110])

instance decGoodRecord (r : ProxyRecord) : Decidable (GoodRecord r) := by
  unfold GoodRecord
  infer_instance

theorem mem_of_mem_foldl_mergeStep (b : List ProxyRecord) :
    ∀ (st : List ProxyRecord × Nat) (x : ProxyRecord),
      x ∈ (List.foldl mergeStep st b).1 → x ∈ st.1 ∨ x ∈ b := by
  induction b with
  | nil => intro st x hx; exact Or.inl hx
  | cons r bs ih =>
      intro st x hx
      simp only [List.foldl_cons] at hx
      rcases ih (mergeStep st r) x hx with hx' | hx'
      · by_cases h1 : st.1.length < PROXY_CAPACITY
        · by_cases h2 : hashMem st.1 r.hash_value = true
          · rw [show (mergeStep st r).1 = st.1 by simp [mergeStep, h1, h2]] at hx'
            exact Or.inl hx'
          · have h2' : hashMem st.1 r.hash_value = false := by simpa using h2
            rw [show (mergeStep st r).1 = st.1 ++ [r] by simp [mergeStep, h1, h2']] at hx'
            rcases List.mem_append.1 hx' with h | h
            · exact Or.inl h
            · right
              simp only [List.mem_singleton] at h
              simp [h]
        · rw [show (mergeStep st r).1 = st.1 by simp [mergeStep, h1]] at hx'
          exact Or.inl hx'
      · exact Or.inr (List.mem_cons_of_mem _ hx')

/-- Claim C8: every record the finalization produces carries country "UN",
active 1, verified 0, speed score 50, passes `validate_proxy` on its own
fields, and has type "IPv4" exactly when every server byte is a digit or
`'.'` (otherwise "Domain"); and merging preserves these fields for every
stored record (the store only ever contains such records, unmodified). -/
theorem C8_record_fields :
    (∀ (source rawServer rawPort rawSecret : List Nat) (tnow : Nat) (r : ProxyRecord),
      finalizeCandidate source rawServer rawPort rawSecret tnow = some r →
      GoodRecord r ∧ (r.type = [73, 80, 118, 52] ↔ isIPv4server r.server = true)) ∧
    (∀ store batch : List ProxyRecord,
      (∀ x ∈ store, GoodRecord x) → (∀ x ∈ batch, GoodRecord x) →
      ∀ x ∈ (mergeBatch store batch).1, GoodRecord x) := by
  constructor
  · intro source rs rp rk t r h
    simp only [finalizeCandidate] at h
    revert h
    generalize stripPrefixes serverPrefixes (sanitize_string rs) = s1
    generalize stripPrefixes portPrefixes (sanitize_string rp) = p1
    generalize stripPrefixes secretPrefixes (sanitize_string rk) = k1
    intro h
    by_cases hv : validate_proxy s1 p1 k1 = true
    · rw [if_pos hv] at h
      injection h with h'
      subst h'
      refine ⟨⟨rfl, rfl, rfl, rfl, hv, rfl⟩, ?_⟩
      by_cases hip : isIPv4server s1 = true
      · simp [hip]
      · have hip' : isIPv4server s1 = false := by simpa using hip
        simp [hip']
    · rw [if_neg hv] at h
      cases h
  · intro store batch hstore hbatch x hx
    rcases mem_of_mem_foldl_mergeStep batch (store, 0) x hx with h | h
    · exact hstore x h
    · exact hbatch x h

/-- A zero record (used only as a `getD` default in witnesses). -/
def emptyRec : ProxyRecord := ⟨[], [], [], [], [], [], [], 0, 0, 0, 0, 0, 0⟩

/-- The record finalized from source "x", server "1.2.3.4", port "443" and a
32-zero secret at time 100. -/
def wrec8 : ProxyRecord :=
  (finalizeCandidate [120] [49, 46, 50, 46, 51, 46, 52] [52, 52, 51]
    (List.replicate 32 48) 100).getD emptyRec

/-- Witness for C8 at the concrete candidate behind `wrec8`: finalization
succeeds, the produced record satisfies the field invariant (its server is an
IPv4 literal), and merging it keeps the invariant for every stored record. -/
theorem C8_record_fields_witness :
    finalizeCandidate [120] [49, 46, 50, 46, 51, 46, 52] [52, 52, 51]
        (List.replicate 32 48) 100 = some wrec8 ∧
    (GoodRecord wrec8 ∧ (wrec8.type = [73, 80, 118, 52] ↔ isIPv4server wrec8.server = true)) ∧
    (∀ x ∈ (mergeBatch [wrec8] [wrec8]).1, GoodRecord x) := by
  have hfin : finalizeCandidate [120] [49, 46, 50, 46, 51, 46, 52] [52, 52, 51]
      (List.replicate 32 48) 100 = some wrec8 := by decide
  refine ⟨hfin, C8_record_fields.1 _ _ _ _ _ _ hfin,
    C8_record_fields.2 [wrec8] [wrec8] ?_ ?_⟩
  · intro x hx
    rw [List.mem_singleton] at hx
    subst hx
    decide
  · intro x hx
    rw [List.mem_singleton] at hx
    subst hx
    decide

/-! ## Checkpoint writer (`save_proxies_to_json`, lines 784-869) -/

/-- Lowercase hex digit character for a value below 16. -/
def hexDigitChar (d : Nat) : Nat := if d < 10 then 48 + d else 87 + d

/-- The `k` base-16 digits of `n`, most significant first, zero padded. -/
def hexDigits (k n : Nat) : List Nat :=
  (List.range k).map (fun i => n / 16 ^ (k - 1 - i) % 16)

/-- `snprintf(hash_str, 17, "%016llx", hash_value)`: exactly 16 lowercase hex
digit characters, most significant first (a `uint64_t` never needs more). -/
def hex16 (n : Nat) : List Nat := (hexDigits 16 n).map hexDigitChar

/-- Value of a lowercase hex digit character (inverse of `hexDigitChar`). -/
def hexVal (c : Nat) : Nat := if c < 58 then c - 48 else c - 87

/-- Read a hex string back into a number. -/
def unhex (l : List Nat) : Nat := l.foldl (fun a c => a * 16 + hexVal c) 0

theorem mod_pow_div_mod (n k m : Nat) (h : m < k) :
    n % 16 ^ k / 16 ^ m % 16 = n / 16 ^ m % 16 := by
  rw [Nat.div_mod_eq_mod_mul_div, Nat.div_mod_eq_mod_mul_div]
  congr 1
  have he : (16 : Nat) ^ m * 16 = 16 ^ (m + 1) := (pow_succ 16 m).symm
  rw [he]
  exact Nat.mod_mod_of_dvd n (pow_dvd_pow 16 h)

theorem hexDigits_succ (k n : Nat) (hn : n < 16 ^ (k + 1)) :
    hexDigits (k + 1) n = n / 16 ^ k :: hexDigits k (n % 16 ^ k) := by
  unfold hexDigits
  rw [List.range_succ_eq_map]
  simp only [List.map_cons, List.map_map]
  congr 1
  · simp only [Nat.add_sub_cancel, Nat.sub_zero]
    exact Nat.mod_eq_of_lt (Nat.div_lt_of_lt_mul (by rw [← pow_succ]; exact hn))
  · apply List.map_congr_left
    intro i hi
    rw [List.mem_range] at hi
    simp only [Function.comp_apply]
    have he : k + 1 - 1 - (i + 1) = k - 1 - i := by omega
    rw [he]
    exact (mod_pow_div_mod n k (k - 1 - i) (by omega)).symm

theorem foldl_digits (k : Nat) : ∀ (a n : Nat), n < 16 ^ k →
    List.foldl (fun acc d => acc * 16 + d) a (hexDigits k n) = a * 16 ^ k + n := by
  induction k with
  | zero =>
      intro a n hn
      have hz : n = 0 := by omega
      subst hz
      simp [hexDigits]
  | succ k ih =>
      intro a n hn
      rw [hexDigits_succ k n hn]
      simp only [List.foldl_cons]
      rw [ih (a * 16 + n / 16 ^ k) (n % 16 ^ k) (Nat.mod_lt _ (Nat.pos_pow_of_pos k (by omega)))]
      have hdm := Nat.div_add_mod n (16 ^ k)
      calc (a * 16 + n / 16 ^ k) * 16 ^ k + n % 16 ^ k
          = a * (16 ^ k * 16) + (16 ^ k * (n / 16 ^ k) + n % 16 ^ k) := by ring
        _ = a * 16 ^ (k + 1) + n := by rw [hdm, pow_succ]

theorem hexVal_hexDigitChar (d : Nat) (hd : d < 16) : hexVal (hexDigitChar d) = d := by
  unfold hexVal hexDigitChar
  split_ifs <;> omega

theorem hexDigits_lt (k n : Nat) : ∀ d ∈ hexDigits k n, d < 16 := by
  intro d hd
  unfold hexDigits at hd
  obtain ⟨i, _, he⟩ := List.mem_map.1 hd
  rw [← he]
  exact Nat.mod_lt _ (by omega)

theorem foldl_hexval_eq (l : List Nat) : ∀ a : Nat, (∀ d ∈ l, d < 16) →
    List.foldl (fun acc c => acc * 16 + hexVal c) a (l.map hexDigitChar)
      = List.foldl (fun acc d => acc * 16 + d) a l := by
  induction l with
  | nil => intro a _; rfl
  | cons d ds ih =>
      intro a hall
      simp only [List.map_cons, List.foldl_cons]
      rw [hexVal_hexDigitChar d (hall d (by simp))]
      exact ih _ (fun x hx => hall x (List.mem_cons_of_mem _ hx))

theorem unhex_hex16 (n : Nat) (hn : n < U64) : unhex (hex16 n) = n := by
  have h1616 : (16 : Nat) ^ 16 = U64 := by decide
  unfold unhex hex16
  rw [foldl_hexval_eq (hexDigits 16 n) 0 (hexDigits_lt 16 n),
    foldl_digits 16 0 n (by rw [h1616]; exact hn)]
  simp

theorem hex16_inj (m n : Nat) (hm : m < U64) (hn : n < U64) (h : hex16 m = hex16 n) :
    m = n := by
  have hc := congrArg unhex h
  rwa [unhex_hex16 m hm, unhex_hex16 n hn] at hc

theorem hex16_length (n : Nat) : (hex16 n).length = 16 := by
  simp [hex16, hexDigits]

theorem hex16_chars (n : Nat) :
    ∀ c ∈ hex16 n, (48 ≤ c ∧ c ≤ 57) ∨ (97 ≤ c ∧ c ≤ 102) := by
  intro c hc
  unfold hex16 at hc
  obtain ⟨d, hd, he⟩ := List.mem_map.1 hc
  have hd16 : d < 16 := hexDigits_lt 16 n d hd
  rw [← he]
  unfold hexDigitChar
  split_ifs <;> omega

/-- One entry of the JSON `proxies` array as the writer builds it (the two
`strftime` timestamp strings are kept as the raw `time_t` values here; their
textual rendering is libc/jansson territory outside the core). -/
structure JsonEntry where
  server : List Nat
  port : List Nat
  secret : List Nat
  url : List Nat
  source : List Nat
  type : List Nat
  country : List Nat
  speed_score : Nat
  discovered : Nat
  last_verified : Nat
  hash : List Nat
deriving DecidableEq

/-- The JSON object built for one active record (lines 811-833). -/
def entryOf (r : ProxyRecord) : JsonEntry :=
  ⟨r.server, r.port, r.secret, r.connection_url, r.source, r.type, r.country,
   r.speed_score, r.discovery_time, r.last_verified, hex16 r.hash_value⟩

/-- The records both output loops visit: indices `0 ≤ i < count` (with
`count` sampled once from `stats.total_proxies`), keeping those whose active
flag is set. -/
def activeRecords (store : List ProxyRecord) (count : Nat) : List ProxyRecord :=
  (store.take count).filter (fun r => decide (r.active ≠ 0))

/-- The `proxies` array of proxies.json. -/
def jsonProxies (store : List ProxyRecord) (count : Nat) : List JsonEntry :=
  (activeRecords store count).map entryOf

/-- The proxy lines of proxies.txt (after the `#` header lines): one
`connection_url` per active record, in store order. -/
def txtLines (store : List ProxyRecord) (count : Nat) : List (List Nat) :=
  (activeRecords store count).map ProxyRecord.connection_url

theorem nodup_map_entryOf (l : List ProxyRecord)
    (hd : (l.map ProxyRecord.hash_value).Nodup)
    (hb : ∀ x ∈ l, x.hash_value < U64) : (l.map entryOf).Nodup := by
  have h1 : l.map (fun r => unhex (hex16 r.hash_value)) = l.map ProxyRecord.hash_value := by
    apply List.map_congr_left
    intro r hr
    exact unhex_hex16 r.hash_value (hb r hr)
  have h2 : (l.map (fun r => hex16 r.hash_value)).Nodup := by
    apply List.Nodup.of_map unhex
    rw [List.map_map]
    exact h1 ▸ hd
  have h3 : (l.map entryOf).map JsonEntry.hash = l.map (fun r => hex16 r.hash_value) := by
    rw [List.map_map]
    rfl
  exact List.Nodup.of_map JsonEntry.hash (h3 ▸ h2)

instance decHashesDistinct (store : List ProxyRecord) : Decidable (HashesDistinct store) := by
  unfold HashesDistinct
  infer_instance

theorem count_eq_one_nodup {α : Type _} [BEq α] [LawfulBEq α] :
    ∀ (l : List α) (a : α), l.Nodup → a ∈ l → l.count a = 1 := by
  intro l
  induction l with
  | nil => intro a _ ha; cases ha
  | cons x xs ih =>
      intro a hnd ha
      rw [List.count_cons]
      rcases List.mem_cons.1 ha with rfl | ha'
      · have hz : xs.count a = 0 := by
          rw [List.count_eq_zero]
          exact (List.nodup_cons.1 hnd).1
        simp [hz]
      · have hne : ¬ a == x := by
          intro hbeq
          have : a = x := eq_of_beq hbeq
          subst this
          exact (List.nodup_cons.1 hnd).1 ha'
        rw [ih a (List.nodup_cons.1 hnd).2 ha']
        have hxa : ¬ x = a := by
          intro he
          subst he
          exact (List.nodup_cons.1 hnd).1 ha'
        simp [hne, hxa]

/-- Claim C4 (amended): for a checkpoint whose `count` was sampled once,
every active record among the first `count` stored records contributes
exactly one JSON entry (entries of distinct-hash records are distinct, the
hash rendering being injective) and one plain-text line in store order; the
text line is the record's `connection_url`, which equals the
`tg://proxy?server=<server>&port=<port>&secret=<secret>` string built from
the record's fields truncated to the 511 bytes its `snprintf` destination
holds; the JSON hash field is exactly 16 lowercase hex digits of the
record's hash. The line value occurs exactly once whenever the active
records' URLs are pairwise distinct (distinct records can render equal
URLs, each still contributing its own line). -/
theorem C4_checkpoint_roundtrip :
    ∀ (store : List ProxyRecord) (count : Nat),
      HashesDistinct store →
      (∀ x ∈ store, x.hash_value < U64) →
      (∀ x ∈ store, x.connection_url = (tgUrlBytes x.server x.port x.secret).take 511) →
      ∀ r ∈ store.take count, r.active ≠ 0 →
        (jsonProxies store count).count (entryOf r) = 1 ∧
        r.connection_url ∈ txtLines store count ∧
        (((activeRecords store count).map ProxyRecord.connection_url).Nodup →
          (txtLines store count).count r.connection_url = 1) ∧
        r.connection_url = (tgUrlBytes r.server r.port r.secret).take 511 ∧
        (entryOf r).hash = hex16 r.hash_value ∧
        (hex16 r.hash_value).length = 16 ∧
        (∀ c ∈ hex16 r.hash_value, (48 ≤ c ∧ c ≤ 57) ∨ (97 ≤ c ∧ c ≤ 102)) := by
  intro store count hdis hbound hurl r hrt hract
  have hrs : r ∈ store := List.take_subset count store hrt
  have hra : r ∈ activeRecords store count := by
    rw [activeRecords, List.mem_filter]
    refine ⟨hrt, ?_⟩
    simpa using hract
  have hsub : ((activeRecords store count).map ProxyRecord.hash_value).Nodup := by
    apply List.Nodup.sublist _ hdis
    apply List.Sublist.map
    exact (List.filter_sublist _).trans (List.take_sublist _ _)
  have hboundA : ∀ x ∈ activeRecords store count, x.hash_value < U64 := by
    intro x hx
    exact hbound x (List.take_subset count store (List.mem_of_mem_filter hx))
  refine ⟨?_, ?_, ?_, hurl r hrs, rfl, hex16_length _, hex16_chars _⟩
  · exact count_eq_one_nodup _ _ (nodup_map_entryOf _ hsub hboundA)
      (List.mem_map_of_mem entryOf hra)
  · exact List.mem_map_of_mem _ hra
  · intro hnd
    exact count_eq_one_nodup _ _ hnd (List.mem_map_of_mem _ hra)

/-- A Domain-type record finalized from server "proxy.ex", port "8080" and a
40-byte hex secret at time 200. -/
def wrec4 : ProxyRecord :=
  (finalizeCandidate [121] [112, 114, 111, 120, 121, 46, 101, 120] [56, 48, 56, 48]
    (List.replicate 40 97) 200).getD emptyRec

/-- Witness for C4 at the one-record store `[wrec4]`: all hypotheses hold by
computation and the checkpoint emits its entry and line exactly once. -/
theorem C4_checkpoint_roundtrip_witness :
    HashesDistinct [wrec4] ∧
    (∀ x ∈ [wrec4], x.hash_value < U64) ∧
    (∀ x ∈ [wrec4], x.connection_url = (tgUrlBytes x.server x.port x.secret).take 511) ∧
    wrec4 ∈ List.take 1 [wrec4] ∧ wrec4.active ≠ 0 ∧
    ((jsonProxies [wrec4] 1).count (entryOf wrec4) = 1 ∧
      wrec4.connection_url ∈ txtLines [wrec4] 1 ∧
      (((activeRecords [wrec4] 1).map ProxyRecord.connection_url).Nodup →
        (txtLines [wrec4] 1).count wrec4.connection_url = 1) ∧
      wrec4.connection_url = (tgUrlBytes wrec4.server wrec4.port wrec4.secret).take 511 ∧
      (entryOf wrec4).hash = hex16 wrec4.hash_value ∧
      (hex16 wrec4.hash_value).length = 16 ∧
      (∀ c ∈ hex16 wrec4.hash_value, (48 ≤ c ∧ c ≤ 57) ∨ (97 ≤ c ∧ c ≤ 102))) := by
  refine ⟨by decide, by decide, by decide, by decide, by decide, ?_⟩
  exact C4_checkpoint_roundtrip [wrec4] 1 (by decide) (by decide) (by decide) wrec4
    (by decide) (by decide)

/-- The record finalized from server "abcd", port "443" and a 480-zero
secret: its full tg:// URL is 519 bytes, longer than the 512-byte
`connection_url` field. -/
def cexRec4 : ProxyRecord :=
  (finalizeCandidate [120] [97, 98, 99, 100] [52, 52, 51]
    (List.replicate 480 48) 100).getD emptyRec

/-- Counterexample to C4 as stated: the checkpoint line for `cexRec4` is its
`connection_url`, but `snprintf` into the 512-byte field truncated the URL,
so the line does NOT equal the full `tg://proxy?...` string built from the
record's server, port and secret. -/
theorem C4_counterexample :
    txtLines [cexRec4] 1 = [cexRec4.connection_url] ∧
    cexRec4.active ≠ 0 ∧
    cexRec4.connection_url ≠ tgUrlBytes cexRec4.server cexRec4.port cexRec4.secret := by
  refine ⟨by decide, by decide, by decide⟩

/-! ## The inner match loop (`extract_proxies_from_content`, lines 534-656) -/

/-- A successful `pcre2_match` with at least three capture groups: the byte
range of the whole match, `match_vector[0]` / `match_vector[1]`. The pcre2
contract (spec section 6) guarantees `startoffset ≤ mstart ≤ mend` for a
search begun at `startoffset`. -/
structure MatchRes where
  mstart : Nat
  mend : Nat
deriving DecidableEq

/-- State of one pattern's match loop: the scan offset, the per-fetch batch
counter `discovery_count`, and the iteration index (used to index the
oracles for the `atomic_load` and for whether the body accepted a record). -/
structure ScanState where
  offset : Nat
  count : Nat
  iter : Nat
deriving DecidableEq

/-- The loop has halted when its condition
`current_offset < content_length && discovery_count < PROXY_BATCH_SIZE &&
atomic_load(&program_active)` fails, or `pcre2_match` reports no further
match (or fewer than three groups: `match_result < 4` breaks). `matcher` is
the external compiled-pattern collaborator; `active i` is what the i-th
iteration's `atomic_load` observes. -/
def ScanHalted (len : Nat) (matcher : Nat → Option MatchRes) (active : Nat → Bool)
    (s : ScanState) : Prop :=
  ¬ (s.offset < len ∧ s.count < PROXY_BATCH_SIZE ∧ active s.iter = true) ∨
    matcher s.offset = none

instance decScanHalted (len : Nat) (matcher : Nat → Option MatchRes) (active : Nat → Bool)
    (s : ScanState) : Decidable (ScanHalted len matcher active s) := by
  unfold ScanHalted
  infer_instance

/-- One iteration of the match loop: under the loop condition, match at the
current offset; the body possibly appends one record to the batch
(`accept i` abstracts the length precheck, sanitization, validation and the
in-batch dedup scan at iteration i), and the scan resumes one byte past the
match end: `current_offset = match_vector[1] + 1`. A halted state is kept
unchanged. -/
def scanStep (len : Nat) (matcher : Nat → Option MatchRes) (active : Nat → Bool)
    (accept : Nat → Bool) (s : ScanState) : ScanState :=
  if s.offset < len ∧ s.count < PROXY_BATCH_SIZE ∧ active s.iter = true then
    match matcher s.offset with
    | none => s
    | some m => ⟨m.mend + 1, s.count + (if accept s.iter then 1 else 0), s.iter + 1⟩
  else s

theorem scan_progress (len : Nat) (matcher : Nat → Option MatchRes)
    (active accept : Nat → Bool)
    (hm : ∀ off m, matcher off = some m → off ≤ m.mend) (s : ScanState)
    (hnh : ¬ ScanHalted len matcher active s) :
    s.offset < (scanStep len matcher active accept s).offset ∧
      ∃ m, matcher s.offset = some m ∧
        (scanStep len matcher active accept s).offset = m.mend + 1 := by
  unfold ScanHalted at hnh
  push_neg at hnh
  obtain ⟨hc, hmm⟩ := hnh
  rcases ho : matcher s.offset with _ | m
  · exact absurd ho hmm
  · have hle := hm s.offset m ho
    have hstep : scanStep len matcher active accept s
        = ⟨m.mend + 1, s.count + (if accept s.iter then 1 else 0), s.iter + 1⟩ := by
      unfold scanStep
      rw [if_pos hc, ho]
    rw [hstep]
    exact ⟨Nat.lt_succ_of_le hle, m, rfl, rfl⟩

/-- Claim C7: for every pattern over a fixed buffer, the match loop makes
strict progress — each non-final iteration resumes one byte past the match
end, strictly increasing the offset — the halting condition is exactly
"buffer exhausted, or batch at 5000, or shutdown observed, or no further
match", and from any state the loop halts within `len - offset`
iterations. -/
theorem C7_scan_terminates :
    ∀ (len : Nat) (matcher : Nat → Option MatchRes) (active accept : Nat → Bool),
      (∀ off m, matcher off = some m → off ≤ m.mend) →
      (∀ s : ScanState, ¬ ScanHalted len matcher active s →
        s.offset < (scanStep len matcher active accept s).offset ∧
          ∃ m, matcher s.offset = some m ∧
            (scanStep len matcher active accept s).offset = m.mend + 1) ∧
      (∀ s : ScanState, ScanHalted len matcher active s ↔
        (len ≤ s.offset ∨ PROXY_BATCH_SIZE ≤ s.count ∨ active s.iter = false ∨
          matcher s.offset = none)) ∧
      (∀ s : ScanState, ∃ n, n ≤ len - s.offset ∧
        ScanHalted len matcher active ((scanStep len matcher active accept)^[n] s)) := by
  intro len matcher active accept hm
  refine ⟨scan_progress len matcher active accept hm, ?_, ?_⟩
  · intro s
    unfold ScanHalted
    constructor
    · intro h
      by_cases h1 : s.offset < len
      · by_cases h2 : s.count < PROXY_BATCH_SIZE
        · by_cases h3 : active s.iter = true
          · rcases h with hc | hmm
            · exact absurd ⟨h1, h2, h3⟩ hc
            · exact Or.inr (Or.inr (Or.inr hmm))
          · exact Or.inr (Or.inr (Or.inl (by simpa using h3)))
        · exact Or.inr (Or.inl (by omega))
      · exact Or.inl (by omega)
    · intro h
      rcases h with h | h | h | h
      · exact Or.inl (fun hc => by omega)
      · exact Or.inl (fun hc => by omega)
      · exact Or.inl (fun hc => by rw [hc.2.2] at h; cases h)
      · exact Or.inr h
  · have main : ∀ (fuel : Nat) (s : ScanState), len - s.offset ≤ fuel →
        ∃ n, n ≤ len - s.offset ∧
          ScanHalted len matcher active ((scanStep len matcher active accept)^[n] s) := by
      intro fuel
      induction fuel with
      | zero =>
          intro s hf
          refine ⟨0, Nat.zero_le _, ?_⟩
          simp only [Function.iterate_zero_apply]
          unfold ScanHalted
          left
          intro hc
          omega
      | succ fuel ih =>
          intro s hf
          by_cases hh : ScanHalted len matcher active s
          · exact ⟨0, Nat.zero_le _, by simpa using hh⟩
          · obtain ⟨hlt, m, hmo, hoff⟩ := scan_progress len matcher active accept hm s hh
            have hsl : s.offset < len := by
              by_contra hge
              exact hh (Or.inl (fun hc => by omega))
            rw [hoff] at hlt
            have hfuel : len - (scanStep len matcher active accept s).offset ≤ fuel := by
              rw [hoff]
              omega
            obtain ⟨n, hn, hhal⟩ := ih (scanStep len matcher active accept s) hfuel
            refine ⟨n + 1, by omega, ?_⟩
            rw [Function.iterate_succ_apply]
            exact hhal
    exact fun s => main (len - s.offset) s (Nat.le_refl _)

/-- A matcher that never matches (used by the witness). -/
def matcherNone : Nat → Option MatchRes := fun _ => none

/-- Witness for C7 with the never-matching matcher over a 5-byte buffer: the
pcre2 contract hypothesis holds vacuously and the loop halts immediately
from the initial state. -/
theorem C7_scan_terminates_witness :
    (∀ off m, matcherNone off = some m → off ≤ m.mend) ∧
    (∃ n, n ≤ 5 - (ScanState.mk 0 0 0).offset ∧
      ScanHalted 5 matcherNone (fun _ => true)
        ((scanStep 5 matcherNone (fun _ => true) (fun _ => false))^[n] ⟨0, 0, 0⟩)) := by
  have hm : ∀ off m, matcherNone off = some m → off ≤ m.mend := by
    intro off m h
    cases h
  exact ⟨hm, (C7_scan_terminates 5 matcherNone (fun _ => true) (fun _ => false) hm).2.2
    ⟨0, 0, 0⟩⟩

/-! ## Scheduler and shutdown
(`autonomous_operation` lines 911-989, `url_worker` lines 766-781,
`cleanup_resources` lines 992-1017).

One cycle of the batch scheduler plus the shutdown path is modelled as a
sequential event trace over a global step counter; `flag t` is the value of
`program_active` an `atomic_load` at instant `t` observes (the signal
handler only ever clears the flag, hence the monotonicity hypothesis).
Worker bodies are sequentialized at their join points: launching a task
takes one tick, and each worker performs its own flag check at its first
tick — exactly the guard `if (atomic_load(&program_active) && task &&
task->url)` in `url_worker`, repeated at the top of `fetch_url_content`. -/

/-- Trace events: a worker thread launched for a URL index, an HTTP fetch
actually starting, a worker finishing (its counter decrement, which
`pthread_join` awaits), the final checkpoint write, and process exit. -/
inductive Event where
  | launch : Nat → Nat → Event
  | fetchStart : Nat → Nat → Event
  | workerDone : Nat → Nat → Event
  | checkpoint : Nat → Event
  | terminate : Nat → Event
deriving DecidableEq

/-- One worker: it checks the flag at its first tick and fetches only if the
flag still reads true; either way it finishes and decrements the
active-worker counter before `pthread_join` returns. -/
def runWorker (flag : Nat → Bool) (u t : Nat) : List Event × Nat :=
  if flag t then ([Event.fetchStart u t, Event.workerDone u (t + 1)], t + 2)
  else ([Event.workerDone u t], t + 1)

/-- The per-batch launch loop (lines 932-956): it launches EVERY task of the
batch, one tick each, without consulting the shutdown flag — the inner `for`
loop has no `program_active` check. -/
def launchBatch (batch : List Nat) (t : Nat) : List Event × Nat :=
  match batch with
  | [] => ([], t)
  | u :: rest =>
    let res := launchBatch rest (t + 1)
    (Event.launch u t :: res.1, res.2)

/-- The join loop (lines 958-961): every launched worker runs and is joined
in order. -/
def joinBatch (flag : Nat → Bool) (batch : List Nat) (t : Nat) : List Event × Nat :=
  match batch with
  | [] => ([], t)
  | u :: rest =>
    let w := runWorker flag u t
    let res := joinBatch flag rest w.2
    (w.1 ++ res.1, res.2)

/-- The batch loop of one cycle: while URLs remain, one `atomic_load` of the
flag (one tick); if it reads false the loop exits; otherwise the next batch
of at most CONCURRENT_DOWNLOADS (20) URLs is launched in full and joined.
`fuel` only bounds the recursion; `fuel = urls.length` always suffices since
every round consumes at least one URL. -/
def runBatchesAux (flag : Nat → Bool) : Nat → List Nat → Nat → List Event × Nat
  | 0, _, t => ([], t)
  | _ + 1, [], t => ([], t)
  | fuel + 1, u :: rest, t =>
    if flag t then
      let le := launchBatch ((u :: rest).take 20) (t + 1)
      let je := joinBatch flag ((u :: rest).take 20) le.2
      let tailRes := runBatchesAux flag fuel ((u :: rest).drop 20) je.2
      (le.1 ++ je.1 ++ tailRes.1, tailRes.2)
    else ([], t + 1)

/-- One cycle's batch loop from time 0. -/
def runBatches (flag : Nat → Bool) (urls : List Nat) : List Event × Nat :=
  runBatchesAux flag urls.length urls 0

/-- The whole post-scheduler shutdown path appended to one cycle: by the
time the batch loop exits every launched worker has been joined, so the
wait loop in `cleanup_resources` sees an active-worker count of zero and
falls through at once; one final `save_proxies_to_json` checkpoint is
written and the process exits. -/
def program (flag : Nat → Bool) (urls : List Nat) : List Event :=
  (runBatches flag urls).1 ++
    [Event.checkpoint (runBatches flag urls).2,
     Event.terminate ((runBatches flag urls).2 + 1)]

/-- Recognizers for counting thread starts and finishes. -/
def isLaunch : Event → Bool
  | Event.launch _ _ => true
  | _ => false

def isDone : Event → Bool
  | Event.workerDone _ _ => true
  | _ => false

/-- Active-worker counter contributions of a trace: launches minus
finishes is the counter, so equal counts mean the counter is back to 0. -/
def launchCount (es : List Event) : Nat := es.countP isLaunch

def doneCount (es : List Event) : Nat := es.countP isDone

theorem launchBatch_no_fetch (batch : List Nat) :
    ∀ (t u tf : Nat), Event.fetchStart u tf ∉ (launchBatch batch t).1 := by
  induction batch with
  | nil => intro t u tf h; cases h
  | cons v rest ih =>
      intro t u tf h
      simp only [launchBatch, List.mem_cons] at h
      rcases h with h | h
      · cases h
      · exact ih (t + 1) u tf h

theorem launchBatch_counts (batch : List Nat) :
    ∀ t, launchCount (launchBatch batch t).1 = batch.length ∧
      doneCount (launchBatch batch t).1 = 0 := by
  induction batch with
  | nil => intro t; constructor <;> rfl
  | cons v rest ih =>
      intro t
      obtain ⟨ihl, ihd⟩ := ih (t + 1)
      have hsh : (launchBatch (v :: rest) t).1
          = Event.launch v t :: (launchBatch rest (t + 1)).1 := rfl
      unfold launchCount at ihl
      unfold doneCount at ihd
      unfold launchCount doneCount
      rw [hsh, List.countP_cons, List.countP_cons, ihl, ihd]
      constructor
      · simp [isLaunch]
      · simp [isDone]

theorem runWorker_fetch (flag : Nat → Bool) (u t v tf : Nat)
    (h : Event.fetchStart v tf ∈ (runWorker flag u t).1) : flag tf = true := by
  unfold runWorker at h
  by_cases hf : flag t = true
  · rw [if_pos hf] at h
    simp only [List.mem_cons, List.mem_singleton] at h
    rcases h with h | h | h
    · injection h with h1 h2
      rw [← h2] at hf
      exact hf
    · cases h
    · cases h
  · rw [if_neg hf] at h
    simp only [List.mem_singleton] at h
    cases h

theorem runWorker_counts (flag : Nat → Bool) (u t : Nat) :
    launchCount (runWorker flag u t).1 = 0 ∧ doneCount (runWorker flag u t).1 = 1 := by
  unfold runWorker
  by_cases hf : flag t = true <;>
    simp [hf, launchCount, doneCount, List.countP_cons, isLaunch, isDone]

theorem joinBatch_fetch (flag : Nat → Bool) (batch : List Nat) :
    ∀ (t v tf : Nat), Event.fetchStart v tf ∈ (joinBatch flag batch t).1 →
      flag tf = true := by
  induction batch with
  | nil => intro t v tf h; cases h
  | cons u rest ih =>
      intro t v tf h
      simp only [joinBatch, List.mem_append] at h
      rcases h with h | h
      · exact runWorker_fetch flag u t v tf h
      · exact ih _ v tf h

theorem joinBatch_counts (flag : Nat → Bool) (batch : List Nat) :
    ∀ t, launchCount (joinBatch flag batch t).1 = 0 ∧
      doneCount (joinBatch flag batch t).1 = batch.length := by
  induction batch with
  | nil => intro t; constructor <;> rfl
  | cons u rest ih =>
      intro t
      obtain ⟨ihl, ihd⟩ := ih (runWorker flag u t).2
      obtain ⟨wl, wd⟩ := runWorker_counts flag u t
      have hsh : (joinBatch flag (u :: rest) t).1
          = (runWorker flag u t).1 ++ (joinBatch flag rest (runWorker flag u t).2).1 := rfl
      unfold launchCount at ihl wl
      unfold doneCount at ihd wd
      unfold launchCount doneCount
      rw [hsh, List.countP_append, List.countP_append, ihl, ihd, wl, wd]
      constructor
      · rfl
      · simp [Nat.add_comm]

theorem runBatchesAux_fetch (flag : Nat → Bool) :
    ∀ (fuel : Nat) (urls : List Nat) (t v tf : Nat),
      Event.fetchStart v tf ∈ (runBatchesAux flag fuel urls t).1 → flag tf = true := by
  intro fuel
  induction fuel with
  | zero => intro urls t v tf h; cases h
  | succ fuel ih =>
      intro urls t v tf h
      cases urls with
      | nil => cases h
      | cons u rest =>
          by_cases hf : flag t = true
          · have hsh : (runBatchesAux flag (fuel + 1) (u :: rest) t).1
                = (launchBatch ((u :: rest).take 20) (t + 1)).1 ++
                  ((joinBatch flag ((u :: rest).take 20)
                    (launchBatch ((u :: rest).take 20) (t + 1)).2).1 ++
                  (runBatchesAux flag fuel ((u :: rest).drop 20)
                    (joinBatch flag ((u :: rest).take 20)
                      (launchBatch ((u :: rest).take 20) (t + 1)).2).2).1) := by
              simp only [runBatchesAux]
              rw [if_pos hf]
              simp
            rw [hsh] at h
            simp only [List.mem_append] at h
            rcases h with h | h | h
            · exact absurd h (launchBatch_no_fetch _ _ v tf)
            · exact joinBatch_fetch flag _ _ v tf h
            · exact ih _ _ v tf h
          · have hsh : (runBatchesAux flag (fuel + 1) (u :: rest) t).1 = [] := by
              simp only [runBatchesAux]
              rw [if_neg hf]
            rw [hsh] at h
            cases h

theorem runBatchesAux_counts (flag : Nat → Bool) :
    ∀ (fuel : Nat) (urls : List Nat) (t : Nat),
      launchCount (runBatchesAux flag fuel urls t).1
        = doneCount (runBatchesAux flag fuel urls t).1 := by
  intro fuel
  induction fuel with
  | zero => intro urls t; rfl
  | succ fuel ih =>
      intro urls t
      cases urls with
      | nil => rfl
      | cons u rest =>
          by_cases hf : flag t = true
          · have hsh : (runBatchesAux flag (fuel + 1) (u :: rest) t).1
                = (launchBatch ((u :: rest).take 20) (t + 1)).1 ++
                  ((joinBatch flag ((u :: rest).take 20)
                    (launchBatch ((u :: rest).take 20) (t + 1)).2).1 ++
                  (runBatchesAux flag fuel ((u :: rest).drop 20)
                    (joinBatch flag ((u :: rest).take 20)
                      (launchBatch ((u :: rest).take 20) (t + 1)).2).2).1) := by
              simp only [runBatchesAux]
              rw [if_pos hf]
              simp
            obtain ⟨ll, ld⟩ := launchBatch_counts ((u :: rest).take 20) (t + 1)
            obtain ⟨jl, jd⟩ := joinBatch_counts flag ((u :: rest).take 20)
              (launchBatch ((u :: rest).take 20) (t + 1)).2
            have htail := ih ((u :: rest).drop 20)
              (joinBatch flag ((u :: rest).take 20)
                (launchBatch ((u :: rest).take 20) (t + 1)).2).2
            unfold launchCount at ll jl htail ⊢
            unfold doneCount at ld jd htail ⊢
            rw [hsh, List.countP_append, List.countP_append, List.countP_append,
              List.countP_append, ll, ld, jl, jd, htail]
            omega
          · have hsh : (runBatchesAux flag (fuel + 1) (u :: rest) t).1 = [] := by
              simp only [runBatchesAux]
              rw [if_neg hf]
            rw [hsh]
            rfl

/-- Claim C9 (amended): assuming the flag is monotone (the signal handler
only ever clears it) and reads false at time `sdt`: no fetch begins at or
after `sdt` — each worker checks the flag before fetching and the batch loop
checks it before every batch, although the inner per-batch LAUNCH loop does
not (see the counterexample); every launched worker is joined inside its
batch iteration, so launches and finishes balance and the active-worker
counter is zero when the scheduler returns; and the trace ends with exactly
one final checkpoint immediately before process exit. -/
theorem C9_shutdown_drain :
    ∀ (flag : Nat → Bool) (urls : List Nat),
      (∀ t1 t2 : Nat, t1 ≤ t2 → flag t2 = true → flag t1 = true) →
      ∀ sdt : Nat, flag sdt = false →
        (∀ v tf, Event.fetchStart v tf ∈ program flag urls → tf < sdt) ∧
        launchCount (program flag urls) = doneCount (program flag urls) ∧
        ∃ tc, program flag urls
          = (runBatches flag urls).1 ++ [Event.checkpoint tc, Event.terminate (tc + 1)] := by
  intro flag urls hmono sdt hsdt
  refine ⟨?_, ?_, (runBatches flag urls).2, rfl⟩
  · intro v tf h
    unfold program at h
    simp only [List.mem_append, List.mem_cons, List.mem_singleton] at h
    rcases h with h | h | h
    · have hft := runBatchesAux_fetch flag urls.length urls 0 v tf h
      by_contra hge
      push_neg at hge
      have hc := hmono sdt tf hge hft
      rw [hsdt] at hc
      cases hc
    · cases h
    · rcases h with h | h
      · cases h
      · cases h
  · unfold program runBatches launchCount doneCount
    rw [List.countP_append, List.countP_append]
    have hc := runBatchesAux_counts flag urls.length urls 0
    unfold launchCount at hc
    unfold doneCount at hc
    rw [hc]
    simp [isLaunch, isDone]

/-- A flag that is true only at instant 0: shutdown is requested between the
first and second observation. -/
def flagUntil1 : Nat → Bool := fun t => decide (t = 0)

/-- Witness for C9 on the two-URL catalog with shutdown at time 1: no fetch
starts at time 1 or later, worker launches and finishes balance, and the
final checkpoint precedes exit. -/
theorem C9_shutdown_drain_witness :
    (∀ t1 t2 : Nat, t1 ≤ t2 → flagUntil1 t2 = true → flagUntil1 t1 = true) ∧
    flagUntil1 1 = false ∧
    ((∀ v tf, Event.fetchStart v tf ∈ program flagUntil1 [7, 8] → tf < 1) ∧
      launchCount (program flagUntil1 [7, 8]) = doneCount (program flagUntil1 [7, 8]) ∧
      ∃ tc, program flagUntil1 [7, 8]
        = (runBatches flagUntil1 [7, 8]).1 ++ [Event.checkpoint tc, Event.terminate (tc + 1)]) := by
  have hmono : ∀ t1 t2 : Nat, t1 ≤ t2 → flagUntil1 t2 = true → flagUntil1 t1 = true := by
    intro t1 t2 h12 h2
    unfold flagUntil1 at h2 ⊢
    rw [decide_eq_true_eq] at h2
    rw [decide_eq_true_eq]
    omega
  exact ⟨hmono, by decide, C9_shutdown_drain flagUntil1 [7, 8] hmono 1 (by decide)⟩

/-- Counterexample to C9 as stated: with shutdown requested after instant 0
(the flag is false from time 1 on, monotonically), the per-batch launch loop
still launches the batch's second task at time 2 — it performs no flag check
before launching further work, contradicting the claim's parenthetical that
both the batch loop and the per-batch launch loop check the flag before
launching. -/
theorem C9_counterexample :
    (∀ t1 t2 : Nat, t1 ≤ t2 → flagUntil1 t2 = true → flagUntil1 t1 = true) ∧
    flagUntil1 1 = false ∧ flagUntil1 2 = false ∧
    Event.launch 8 2 ∈ program flagUntil1 [7, 8] := by
  refine ⟨?_, by decide, by decide, by decide⟩
  intro t1 t2 h12 h2
  unfold flagUntil1 at h2 ⊢
  rw [decide_eq_true_eq] at h2
  rw [decide_eq_true_eq]
  omega
